import Mathlib

/-!
Shallow embedding of `mesonbuild/mdist.py` (the meson `dist` pipeline):
snapshot extraction for git and mercurial, dist-script hooks, archive
production, verification of one produced archive, and integrity stamping.

External effects (subprocess exit codes, the tree produced by `git clone`
plus `git submodule update`, the output of `hg summary`, the entries that
`shutil.unpack_archive` produced) are parameters of the embedded
functions; everything the Python code itself computes is embedded
faithfully from the source.
-/

namespace Mdist

/-- Byte strings are modelled as lists of naturals below 256. -/
abbrev Bytes := List Nat

/-- Content of a file in the dist output directory: archives are byte
files, sidecar digest files are text files written with mode "w". -/
inductive FData where
  | bytes : Bytes → FData
  | text : String → FData
deriving DecidableEq

/-- The dist output directory, as a flat map from path to file content.
Later entries never shadow earlier ones: `writeFile` replaces in place. -/
abbrev FileSys := List (String × FData)

/-- Association-list lookup of a path in the output directory. -/
def lookupFile (fs : FileSys) (name : String) : Option FData :=
  match fs with
  | [] => none
  | (n, d) :: rest => if n = name then some d else lookupFile rest name

/-- Create or overwrite a file, as `open(name, "w")` does. -/
def writeFile (fs : FileSys) (name : String) (d : FData) : FileSys :=
  match fs with
  | [] => [(name, d)]
  | (n, d0) :: rest =>
      if n = name then (n, d) :: rest else (n, d0) :: writeFile rest name d

/-- Split a character list on every occurrence of `sep`, as Python
`str.split(sep)` does: the result is never empty, and splitting the
empty string yields one empty piece. -/
def splitOnChar (sep : Char) : List Char → List (List Char)
  | [] => [[]]
  | c :: rest =>
      let r := splitOnChar sep rest
      if c = sep then [] :: r
      else
        match r with
        | [] => [[c]]
        | h :: t => (c :: h) :: t

/-- Whitespace characters removed by Python `str.strip()`. -/
def isSpaceChar (c : Char) : Bool :=
  c = ' ' || c = '\t' || c = '\n' || c = '\r' || c = '\x0b' || c = '\x0c'

/-- Embeds Python `str.strip()`: drop whitespace at both ends. -/
def trimChars (l : List Char) : List Char :=
  ((l.dropWhile isSpaceChar).reverse.dropWhile isSpaceChar).reverse

/-- Embeds `os.path.basename`: the part of the path after the last slash. -/
def basename (p : String) : String :=
  String.mk ((splitOnChar '/' p.toList).getLastD p.toList)

/-- Embeds `create_hash` (mdist.py lines 38-43).  The digest algorithm
itself (`hashlib.sha256`) is external; it enters as the parameter `hex`
mapping the full byte content read from the archive to its hex digest.
Python raises if the archive is missing or unreadable, hence `Option`:
`none` is the raising path. -/
def create_hash (hex : Bytes → String) (fs : FileSys) (fname : String) :
    Option FileSys :=
  match lookupFile fs fname with
  | some (FData.bytes b) =>
      some (writeFile fs (fname ++ ".sha256sum")
        (FData.text (hex b ++ " " ++ basename fname ++ "\n")))
  | _ => none

/-- Embeds the module-level `archive_choices` list. -/
def archive_choices : List String := ["gztar", "xztar", "zip"]

/-- Embeds the `archive_extension` dict; `none` is a `KeyError`. -/
def archive_extension (a : String) : Option String :=
  if a = "gztar" then some ".tar.gz"
  else if a = "xztar" then some ".tar.xz"
  else if a = "zip" then some ".zip"
  else none

/-- The two fatal errors `determine_archives_to_generate` can exit with. -/
inductive FormatErr where
  | unrecognized : String → FormatErr
  | empty : FormatErr
deriving DecidableEq

/-- Embeds `determine_archives_to_generate` (mdist.py lines 182-190).
The loop exits on the first name not in `archive_choices`; afterwards the
code tests `len(i) == 0` on the leftover loop variable, i.e. on the LAST
element of the split (the split of a string on a comma is never the empty
list, so the loop always binds `i`). -/
def determine_archives_to_generate (formats : String) :
    Except FormatErr (List String) :=
  let items := (splitOnChar ',' formats.toList).map String.mk
  match items.find? (fun i => !archive_choices.contains i) with
  | some i => Except.error (FormatErr.unrecognized i)
  | none =>
      if (items.getLastD "").length = 0 then Except.error FormatErr.empty
      else Except.ok items

/-- A directory tree: regular files carry their text content (only the
content of `.gitmodules` files is ever read), symlinks are distinguished
because `del_gitfiles` tests `os.path.islink`, and directories hold a
finite list of named children. -/
inductive FTree where
  | file : String → FTree
  | link : FTree
  | dir : List (String × FTree) → FTree

/-- Whether a directory entry name matches the glob pattern `.git*`. -/
def isGitName (s : String) : Bool := ".git".toList.isPrefixOf s.toList

/-- Embeds `del_gitfiles` (mdist.py lines 46-51) applied to one directory:
every child matching `.git*` is removed — directories via `rmtree`,
files and symlinks via `unlink`; either way the entry disappears.  On a
non-directory the glob matches nothing and nothing happens. -/
def del_gitfiles : FTree → FTree
  | FTree.dir es => FTree.dir (es.filter (fun e => !isGitName e.1))
  | t => t

/-- Names of the direct children of a tree (empty for non-directories). -/
def childNames : FTree → List String
  | FTree.dir es => es.map Prod.fst
  | _ => []

/-- Look up the first entry with the given name in a child list. -/
def lookupEntries : List (String × FTree) → String → Option FTree
  | [], _ => none
  | (n, s) :: rest, c => if n = c then some s else lookupEntries rest c

/-- Look up the direct child with the given name. -/
def lookupChild (t : FTree) (c : String) : Option FTree :=
  match t with
  | FTree.dir es => lookupEntries es c
  | _ => none

/-- Follow a path of components down the tree. -/
def lookupPath (t : FTree) : List String → Option FTree
  | [] => some t
  | c :: rest =>
      match lookupChild t c with
      | some sub => lookupPath sub rest
      | none => none

/-- Apply `f` to the subtree at `path`; if the path does not exist the
tree is returned unchanged (a glob over a missing directory is empty). -/
def modifyAt (t : FTree) : List String → (FTree → FTree) → FTree
  | [], f => f t
  | c :: rest, f =>
      match t with
      | FTree.dir es =>
          FTree.dir (es.map (fun e =>
            if e.1 = c then (e.1, modifyAt e.2 rest f) else e))
      | _ => t

/-- Split a submodule path from `.gitmodules` into components, as
`os.path.join` plus `glob` resolve it; empty components (repeated or
trailing slashes) are dropped, as path normalisation drops them. -/
def splitPath (v : String) : List String :=
  ((splitOnChar '/' v.toList).filter (fun c => c ≠ [])).map String.mk

/-- Split a character list at the FIRST equals sign, as Python
`line.split("=", 1)` does; `none` when the line has no equals sign. -/
def splitFirstEq : List Char → Option (List Char × List Char)
  | [] => none
  | c :: rest =>
      if c = '=' then some ([], rest)
      else
        match splitFirstEq rest with
        | none => none
        | some (k, v) => some (c :: k, v)

/-- Embeds the line loop of `process_submodules` (mdist.py lines 58-67):
strip the line, skip it unless it contains an equals sign, split at the
first equals sign, strip both halves, keep the value when the key is
exactly `path`. -/
def parseModulePaths (content : String) : List String :=
  (splitOnChar '\n' content.toList).filterMap (fun rawLine =>
    let line := trimChars rawLine
    match splitFirstEq line with
    | none => none
    | some (k, v) =>
        if trimChars k = "path".toList then some (String.mk (trimChars v))
        else none)

/-- The submodule `path` entries the code will read from the tree: the
content of the regular file `.gitmodules` at the root, or nothing when
that entry is absent. -/
def modulePaths (t : FTree) : List String :=
  match lookupChild t ".gitmodules" with
  | some (FTree.file content) => parseModulePaths content
  | _ => []

/-- Embeds `process_submodules` (mdist.py lines 53-67) on the cloned
tree, which is taken AFTER the external `git submodule update --init
--recursive` call has populated the submodule directories.  When
`.gitmodules` is absent the function returns at once; when it exists but
is not a regular file, opening it raises (modelled as `none`); otherwise
`del_gitfiles` runs on each directory named by a `path =` entry, in file
order. -/
def process_submodules (t : FTree) : Option FTree :=
  match lookupChild t ".gitmodules" with
  | none => some t
  | some (FTree.file content) =>
      some ((parseModulePaths content).foldl
        (fun acc v => modifyAt acc (splitPath v) del_gitfiles) t)
  | some _ => none

/-- The snapshot-stripping phase of `create_dist_git` (mdist.py lines
101-102): `process_submodules(distdir)` then `del_gitfiles(distdir)`. -/
def gitStripSnapshot (t : FTree) : Option FTree :=
  match process_submodules t with
  | some t1 => some (del_gitfiles t1)
  | none => none

mutual

/-- True when no entry named `.git*` appears anywhere in the tree. -/
def noGitDeep : FTree → Bool
  | FTree.dir es => noGitDeepList es
  | _ => true

/-- List companion of `noGitDeep`. -/
def noGitDeepList : List (String × FTree) → Bool
  | [] => true
  | (n, t) :: rest => !isGitName n && noGitDeep t && noGitDeepList rest

end

/-- True when no DIRECT child of the tree is named `.git*`. -/
def noGitChildren (t : FTree) : Bool :=
  (childNames t).all (fun n => !isGitName n)

/-- The subtree at `p` either no longer exists or has no `.git*`
children. -/
def strippedAt (t : FTree) (p : List String) : Bool :=
  match lookupPath t p with
  | none => true
  | some sub => noGitChildren sub

/-- A dist script as stored in `b.dist_scripts`: the executable argv
part `d["exe"]` and the argument list `d["args"]`. -/
structure HookSpec where
  exe : List String
  args : List String
deriving DecidableEq

/-- Result of trying to launch one dist script: `oserror` when the
subprocess cannot be started at all, otherwise the exit code. -/
inductive HookOutcome where
  | oserror : HookOutcome
  | exited : Int → HookOutcome
deriving DecidableEq

/-- The two fatal ways `run_dist_scripts` terminates the process. -/
inductive HookFailure where
  | errored : HookFailure
  | launchFailed : HookFailure
deriving DecidableEq

/-- A process environment, as an association list of variables. -/
abbrev Env := List (String × String)

/-- Python dict assignment `env[k] = v` on a dict copied from
`os.environ`: replace the value in place when the key is present,
append the pair otherwise. -/
def envSet (e : Env) (k v : String) : Env :=
  if e.any (fun p => p.1 = k) then
    e.map (fun p => if p.1 = k then (k, v) else p)
  else e ++ [(k, v)]

/-- Embeds POSIX `os.path.isabs`. -/
def isabs (p : String) : Bool := "/".toList.isPrefixOf p.toList

/-- What one `run_dist_scripts` call did: the environment every script
was launched with, the scripts actually launched in order, and the
failure (if any) that terminated the process. -/
structure HookRun where
  envUsed : Env
  ran : List HookSpec
  failure : Option HookFailure
deriving DecidableEq

/-- The script loop of `run_dist_scripts` (mdist.py lines 74-85): launch
each script in the order supplied; a non-zero exit or an `OSError` stops
the loop at once via `sys.exit`. -/
def hooksLoop (outcome : HookSpec → HookOutcome) :
    List HookSpec → List HookSpec × Option HookFailure
  | [] => ([], none)
  | s :: rest =>
      match outcome s with
      | HookOutcome.oserror => ([s], some HookFailure.launchFailed)
      | HookOutcome.exited rc =>
          if rc = 0 then
            let r := hooksLoop outcome rest
            (s :: r.1, r.2)
          else ([s], some HookFailure.errored)

/-- Embeds `run_dist_scripts` (mdist.py lines 70-85).  The leading
`assert os.path.isabs(dist_root)` raises when the root is relative
(modelled as `none`); otherwise the environment is a copy of `os.environ`
with `MESON_DIST_ROOT` set to the snapshot root, and the scripts run in
order until the first failure. -/
def run_dist_scripts (outcome : HookSpec → HookOutcome) (environ : Env)
    (dist_root : String) (dist_scripts : List HookSpec) : Option HookRun :=
  if isabs dist_root then
    let env := envSet environ "MESON_DIST_ROOT" dist_root
    let r := hooksLoop outcome dist_scripts
    some { envUsed := env, ran := r.1, failure := r.2 }
  else none

/-- Embeds `git_have_dirty_index` (mdist.py lines 88-91): the tree
counts as dirty exactly when `git diff-index --quiet HEAD` exits 1. -/
def git_have_dirty_index (diffExit : Int) : Bool := diffExit = 1

/-- Containment of one character sequence in another, as Python
`needle in hay` on byte strings. -/
def hasInfix (needle : List Char) : List Char → Bool
  | [] => needle.isEmpty
  | c :: rest => needle.isPrefixOf (c :: rest) || hasInfix needle rest

/-- Embeds `hg_have_dirty_index` (mdist.py lines 113-116): dirty exactly
when `hg summary` output does NOT contain `commit: (clean)`. -/
def hg_have_dirty_index (summaryOut : String) : Bool :=
  !(hasInfix "commit: (clean)".toList summaryOut.toList)

/-- The warning both strategies print for a dirty tree. -/
def dirtyWarning : String :=
  "Repository has uncommitted changes that will not be included in the dist tarball"

/-- The warning the mercurial strategy prints instead of running dist
scripts. -/
def hgScriptsWarning : String :=
  "dist scripts are not supported in Mercurial projects"

/-- What `create_dist_hg` did: warnings printed, scripts launched
(always none: the mercurial path has no call to `run_dist_scripts`),
and the produced archive paths in order. -/
structure HgResult where
  warnings : List String
  hookRan : List HookSpec
  output_names : List String
deriving DecidableEq

/-- Embeds `create_dist_hg` (mdist.py lines 118-143).  The `hg archive`
exports themselves are external; the function records the warnings and
the `output_names` list exactly as the code builds it: `xztar` first if
requested, then `gztar`, then `zip`, regardless of the order inside
`archives`. -/
def create_dist_hg (summaryOut : String) (dist_name dist_sub : String)
    (archives : List String) (dist_scripts : List HookSpec) : HgResult :=
  let w1 : List String := if hg_have_dirty_index summaryOut then [dirtyWarning] else []
  let tarname := dist_sub ++ "/" ++ dist_name ++ ".tar"
  let xzname := tarname ++ ".xz"
  let gzname := tarname ++ ".gz"
  let zipname := dist_sub ++ "/" ++ dist_name ++ ".zip"
  let w2 := if dist_scripts.isEmpty then w1 else w1 ++ [hgScriptsWarning]
  let n1 : List String := if archives.contains "xztar" then [xzname] else []
  let n2 : List String := if archives.contains "gztar" then [gzname] else []
  let n3 : List String := if archives.contains "zip" then [zipname] else []
  { warnings := w2, hookRan := [], output_names := n1 ++ n2 ++ n3 }

/-- What `create_dist_git` did: warnings printed, the stripped snapshot
tree, whether `process_submodules` completed, the dist scripts launched,
whether a `sys.exit` aborted the run before archiving, and the produced
archive paths. -/
structure GitResult where
  warnings : List String
  snapshot : FTree
  snapshotOk : Bool
  hookRan : List HookSpec
  aborted : Bool
  output_names : List String

/-- Embeds `create_dist_git` (mdist.py lines 93-110).  The `git clone
--shared` into `distdir` and the `git submodule update --init
--recursive` are external: `cloned` is the tree they produce.  Then the
code strips submodule paths and the snapshot root, runs the dist
scripts, and builds one archive per requested format in request order,
with the extension of the `archive_extension` dict. -/
def create_dist_git (diffExit : Int) (cloned : FTree)
    (outcome : HookSpec → HookOutcome) (environ : Env)
    (dist_name dist_sub : String) (archives : List String)
    (dist_scripts : List HookSpec) : GitResult :=
  let warnings : List String :=
    if git_have_dirty_index diffExit then [dirtyWarning] else []
  let distdir := dist_sub ++ "/" ++ dist_name
  match process_submodules cloned with
  | none =>
      { warnings := warnings, snapshot := cloned, snapshotOk := false,
        hookRan := [], aborted := true, output_names := [] }
  | some t1 =>
      let snap := del_gitfiles t1
      match run_dist_scripts outcome environ distdir dist_scripts with
      | none =>
          { warnings := warnings, snapshot := snap, snapshotOk := true,
            hookRan := [], aborted := true, output_names := [] }
      | some hr =>
          if hr.failure.isSome then
            { warnings := warnings, snapshot := snap, snapshotOk := true,
              hookRan := hr.ran, aborted := true, output_names := [] }
          else
            { warnings := warnings, snapshot := snap, snapshotOk := true,
              hookRan := hr.ran, aborted := false,
              output_names :=
                archives.map (fun a => distdir ++ (archive_extension a).getD "") }

/-- External outcomes of the verification stages: the top-level entries
that `shutil.unpack_archive` left in the unpack directory, and the exit
codes of the configure, build, test and install subprocesses. -/
structure CheckEnv where
  unpackEntries : List String
  configureExit : Int
  buildExit : Int
  testExit : Int
  installExit : Int

/-- The three scratch directories of `check_dist`; `none` means the
directory does not exist, `some l` that it exists with entries `l`. -/
structure Scratch where
  unpack : Option (List String)
  build : Option (List String)
  install : Option (List String)
deriving DecidableEq

/-- The verification stages that launch a subprocess. -/
inductive Stage where
  | configure : Stage
  | build : Stage
  | test : Stage
  | install : Stage
deriving DecidableEq

/-- How `check_dist` ends: a returned exit code, or a raised exception
(the failed top-level-entry assertion) propagating to the caller. -/
inductive CheckOutcome where
  | returned : Int → CheckOutcome
  | raised : CheckOutcome
deriving DecidableEq

/-- What one `check_dist` call did: the scratch state right after the
preparation loop, the scratch state at return, the stages whose
subprocess was launched, and the outcome. -/
structure CheckResult where
  prepared : Scratch
  dirs : Scratch
  stagesRun : List Stage
  outcome : CheckOutcome
deriving DecidableEq

/-- One step of the preparation loop of `check_dist` (mdist.py lines
151-154): remove the directory when it exists, then create it fresh. -/
def freshDir : Option (List String) → Option (List String)
  | some _ => some []
  | none => some []

/-- The whole preparation loop, over the three scratch directories. -/
def prepare_dirs (s : Scratch) : Scratch :=
  { unpack := freshDir s.unpack, build := freshDir s.build,
    install := freshDir s.install }

/-- Embeds `check_dist` (mdist.py lines 146-180).  The stages run in
order unpack, assert-one-entry, configure, build, test, install; the
first failure ends the `try` body (returning 1, or raising for the
assertion), and the `finally` clause removes all three scratch
directories on every path. -/
def check_dist (env : CheckEnv) (dirs0 : Scratch) : CheckResult :=
  let dirs1 := prepare_dirs dirs0
  let cleaned : Scratch := { unpack := none, build := none, install := none }
  if env.unpackEntries.length ≠ 1 then
    { prepared := dirs1, dirs := cleaned, stagesRun := [],
      outcome := CheckOutcome.raised }
  else if env.configureExit ≠ 0 then
    { prepared := dirs1, dirs := cleaned, stagesRun := [Stage.configure],
      outcome := CheckOutcome.returned 1 }
  else if env.buildExit ≠ 0 then
    { prepared := dirs1, dirs := cleaned,
      stagesRun := [Stage.configure, Stage.build],
      outcome := CheckOutcome.returned 1 }
  else if env.testExit ≠ 0 then
    { prepared := dirs1, dirs := cleaned,
      stagesRun := [Stage.configure, Stage.build, Stage.test],
      outcome := CheckOutcome.returned 1 }
  else if env.installExit ≠ 0 then
    { prepared := dirs1, dirs := cleaned,
      stagesRun := [Stage.configure, Stage.build, Stage.test, Stage.install],
      outcome := CheckOutcome.returned 1 }
  else
    { prepared := dirs1, dirs := cleaned,
      stagesRun := [Stage.configure, Stage.build, Stage.test, Stage.install],
      outcome := CheckOutcome.returned 0 }

/-- The stamping loop of `run` (mdist.py lines 219-220): `create_hash`
on every produced archive; `none` when one of the reads raises. -/
def stamp_all (hex : Bytes → String) : FileSys → List String → Option FileSys
  | fs, [] => some fs
  | fs, n :: rest =>
      match create_hash hex fs n with
      | some fs2 => stamp_all hex fs2 rest
      | none => none

/-- Embeds the tail of `run` (mdist.py lines 216-221): verify the FIRST
produced archive only, then stamp every archive if and only if the
verifier returned 0, and return the verifier result as the overall
result.  `none` covers the raising paths: an empty `names` list
(`names[0]` raises `IndexError`), a raised verification assertion, or a
failed sidecar write. -/
def run_verify_and_stamp (hex : Bytes → String)
    (checkRes : String → CheckResult) (fs : FileSys) (names : List String) :
    Option (FileSys × Int) :=
  match names with
  | [] => none
  | n0 :: _ =>
      match (checkRes n0).outcome with
      | CheckOutcome.raised => none
      | CheckOutcome.returned rc =>
          if rc = 0 then
            match stamp_all hex fs names with
            | some fs2 => some (fs2, rc)
            | none => none
          else some (fs, rc)

/-! Concrete instances used by counterexamples and witnesses. -/

/-- A cloned git tree with one submodule at `sub` that itself has a
nested submodule at `sub/inner`, as `git submodule update --init
--recursive` materialises it: every submodule directory carries a
`.git` gitlink file. -/
def c1Tree : FTree :=
  FTree.dir [
    (".gitmodules",
      FTree.file "[submodule \"s\"]\n\tpath = sub\n\turl = ../s.git"),
    (".git", FTree.dir [("config", FTree.file "")]),
    ("sub", FTree.dir [
      (".gitmodules",
        FTree.file "[submodule \"inner\"]\n\tpath = inner\n\turl = ../i.git"),
      (".git", FTree.file "gitdir: ../.git/modules/sub"),
      ("inner", FTree.dir [
        (".git", FTree.file "gitdir: x"),
        ("code.c", FTree.file "")]),
      ("a.c", FTree.file "")]),
    ("meson.build", FTree.file "")]

/-- The snapshot the stripping phase produces from `c1Tree`: the root
and `sub` lose their `.git*` entries, but the nested submodule keeps
its `.git` gitlink because only the root `.gitmodules` is read. -/
def c1Result : FTree :=
  FTree.dir [
    ("sub", FTree.dir [
      ("inner", FTree.dir [
        (".git", FTree.file "gitdir: x"),
        ("code.c", FTree.file "")]),
      ("a.c", FTree.file "")]),
    ("meson.build", FTree.file "")]

/-- A stage environment whose archive unpacked to two top-level
entries. -/
def c6Env : CheckEnv :=
  { unpackEntries := ["proj-1.0", "stray"], configureExit := 0,
    buildExit := 0, testExit := 0, installExit := 0 }

/-- A scratch state with no pre-existing directories. -/
def emptyScratch : Scratch := { unpack := none, build := none, install := none }

/-- A dist script that exits 0. -/
def c7Good : HookSpec := { exe := ["/bin/true"], args := [] }

/-- A dist script that exits 2. -/
def c7Bad : HookSpec := { exe := ["/bin/false"], args := [] }

/-- A dist script after the failing one; it must never run. -/
def c7After : HookSpec := { exe := ["/bin/echo"], args := ["x"] }

/-- Concrete subprocess outcomes: only `c7Bad` fails. -/
def c7Outcome : HookSpec → HookOutcome :=
  fun s => if s = c7Bad then HookOutcome.exited 2 else HookOutcome.exited 0

/-- A concrete ambient environment without MESON_DIST_ROOT. -/
def c7Environ : Env := [("PATH", "/usr/bin"), ("HOME", "/root")]

/-- A concrete produced-archive path. -/
def c2ArchiveName : String := "/bld/meson-dist/p-1.0.tar.xz"

/-- The dist output directory holding that one archive. -/
def c2Fs : FileSys := [(c2ArchiveName, FData.bytes [253, 55])]

/-- Stage outcomes of a verification run where every stage succeeds. -/
def c2Env : CheckEnv :=
  { unpackEntries := ["p-1.0"], configureExit := 0, buildExit := 0,
    testExit := 0, installExit := 0 }

/-- The verifier call `run` makes on the first archive. -/
def c2Check : String → CheckResult := fun _ => check_dist c2Env emptyScratch

/-! Helper lemmas. -/

theorem splitOnChar_ne_nil (sep : Char) (l : List Char) : splitOnChar sep l ≠ [] := by
  cases l with
  | nil => simp [splitOnChar]
  | cons c rest =>
      simp only [splitOnChar]
      split
      · simp
      · cases h : splitOnChar sep rest <;> simp

theorem prepare_dirs_fresh (s : Scratch) :
    prepare_dirs s = { unpack := some [], build := some [], install := some [] } := by
  cases s with
  | mk u b i => cases u <;> cases b <;> cases i <;> rfl

/-! Claim theorems. -/

/-- C3: the three scratch directories of the verifier are created fresh
at verification start — any pre-existing directory of the same name is
destroyed first — and all three are removed before `check_dist` returns
on every exit path, success, stage failure, or raised assertion alike. -/
theorem C3_scratch_dirs_fresh_and_always_removed (env : CheckEnv) (dirs0 : Scratch) :
    (check_dist env dirs0).prepared
        = { unpack := some [], build := some [], install := some [] }
    ∧ (check_dist env dirs0).dirs
        = { unpack := none, build := none, install := none } := by
  unfold check_dist
  refine ⟨?_, ?_⟩ <;> (repeat' split) <;> simp [prepare_dirs_fresh]

/-- C6: when unpacking yields anything other than exactly one top-level
entry, verification ends with the raised packaging-shape assertion, no
stage subprocess (in particular not the configure step) is ever
launched, and the scratch directories are still removed. -/
theorem C6_shape_error_skips_configure (env : CheckEnv) (dirs0 : Scratch)
    (h : env.unpackEntries.length ≠ 1) :
    (check_dist env dirs0).outcome = CheckOutcome.raised
    ∧ (check_dist env dirs0).stagesRun = []
    ∧ (check_dist env dirs0).dirs
        = { unpack := none, build := none, install := none } := by
  unfold check_dist
  simp [h]

/-- C6 witness: a concrete archive unpacking to two top-level entries. -/
theorem C6_shape_error_skips_configure_witness :
    (check_dist c6Env emptyScratch).outcome = CheckOutcome.raised
    ∧ (check_dist c6Env emptyScratch).stagesRun = []
    ∧ (check_dist c6Env emptyScratch).dirs
        = { unpack := none, build := none, install := none } :=
  C6_shape_error_skips_configure c6Env emptyScratch (by decide)

/-- Each permitted archive format has a non-empty name. -/
theorem archive_choices_lengths (x : String) (hx : x ∈ archive_choices) :
    x.length ≠ 0 := by
  simp only [archive_choices, List.mem_cons, List.not_mem_nil, or_false] at hx
  rcases hx with rfl | rfl | rfl <;> decide

theorem determine_archives_items_ne_nil (formats : String) :
    (splitOnChar ',' formats.toList).map String.mk ≠ [] := by
  intro h
  exact splitOnChar_ne_nil ',' formats.toList (List.map_eq_nil_iff.mp h)

/-- C4: the dead branch.  The code means to reject an empty format list
with a dedicated message, but it tests `len(i) == 0` on the leftover
loop variable: the last split element.  If that element were empty it
would already have failed the membership test inside the loop, so the
dedicated empty-list error can never be produced, for any input. -/
theorem C4_empty_format_error_unreachable :
    determine_archives_to_generate "" = Except.error (FormatErr.unrecognized "")
    ∧ ∀ formats : String,
        determine_archives_to_generate formats ≠ Except.error FormatErr.empty := by
  refine ⟨rfl, fun formats h => ?_⟩
  unfold determine_archives_to_generate at h
  simp only at h
  split at h
  · exact FormatErr.noConfusion (Except.error.inj h)
  · next hf =>
      split at h
      · next hlen =>
          have hne : (splitOnChar ',' formats.toList).map String.mk ≠ [] :=
            determine_archives_items_ne_nil formats
          have hmem : ((splitOnChar ',' formats.toList).map String.mk).getLastD ""
              ∈ (splitOnChar ',' formats.toList).map String.mk := by
            rw [List.getLastD_eq_getLast?, List.getLast?_eq_getLast _ hne]
            exact List.getLast_mem hne
          have hok := List.find?_eq_none.mp hf _ hmem
          simp only [Bool.not_eq_true', Bool.not_eq_false] at hok
          have hchoice : ((splitOnChar ',' formats.toList).map String.mk).getLastD ""
              ∈ archive_choices := by
            simpa using hok
          exact archive_choices_lengths _ hchoice hlen
      · exact Except.noConfusion h

/-- C4 witness: the empty invocation hits the unrecognized-format exit,
and a well-formed invocation can never hit the empty-list exit. -/
theorem C4_empty_format_error_unreachable_witness :
    determine_archives_to_generate "" = Except.error (FormatErr.unrecognized "")
    ∧ (determine_archives_to_generate "gztar" = Except.error FormatErr.empty
        → False) :=
  ⟨C4_empty_format_error_unreachable.1,
    fun h => C4_empty_format_error_unreachable.2 "gztar" h⟩

theorem lookupFile_writeFile_self (fs : FileSys) (n : String) (d : FData) :
    lookupFile (writeFile fs n d) n = some d := by
  induction fs with
  | nil => simp [writeFile, lookupFile]
  | cons p rest ih =>
      obtain ⟨k, d0⟩ := p
      by_cases hk : k = n
      · subst hk
        simp [writeFile, lookupFile]
      · simp [writeFile, lookupFile, hk, ih]

theorem lookupFile_writeFile_of_ne (fs : FileSys) (n m : String) (d : FData)
    (h : m ≠ n) :
    lookupFile (writeFile fs n d) m = lookupFile fs m := by
  induction fs with
  | nil => simp [writeFile, lookupFile, Ne.symm h]
  | cons p rest ih =>
      obtain ⟨k, d0⟩ := p
      by_cases hk : k = n
      · subst hk
        simp [writeFile, lookupFile, Ne.symm h]
      · simp [writeFile, lookupFile, hk, ih]

theorem string_ne_append_sha256sum (a : String) : a ≠ a ++ ".sha256sum" := by
  intro h
  have hlen := congrArg String.length h
  rw [String.length_append] at hlen
  have h10 : ".sha256sum".length = 10 := rfl
  omega

/-- C5 counterexample: on a concrete archive the sidecar content uses a
SINGLE space between the digest and the basename, so it differs from
the two-space layout the claim states. -/
theorem C5_two_space_layout_counterexample :
    create_hash (fun _ => "aa") [("dist/p-1.0.tar.xz", FData.bytes [31, 139])]
        "dist/p-1.0.tar.xz"
      = some [("dist/p-1.0.tar.xz", FData.bytes [31, 139]),
          ("dist/p-1.0.tar.xz.sha256sum", FData.text "aa p-1.0.tar.xz\n")]
    ∧ "aa p-1.0.tar.xz\n" ≠ "aa" ++ "  " ++ "p-1.0.tar.xz" ++ "\n" :=
  ⟨rfl, by decide⟩

/-- C5 amended: stamping an archive at path P reads its full byte
content, computes its digest, and writes the sidecar at
P ++ ".sha256sum" whose entire content is the digest, ONE space, the
archive basename and a terminating newline; the archive itself and all
other files are untouched. -/
theorem C5_sidecar_single_space_layout (hex : Bytes → String) (fs : FileSys)
    (fname : String) (b : Bytes)
    (h : lookupFile fs fname = some (FData.bytes b)) :
    ∃ fs2, create_hash hex fs fname = some fs2
    ∧ lookupFile fs2 (fname ++ ".sha256sum")
        = some (FData.text (hex b ++ " " ++ basename fname ++ "\n"))
    ∧ lookupFile fs2 fname = some (FData.bytes b)
    ∧ ∀ m, m ≠ fname ++ ".sha256sum" → lookupFile fs2 m = lookupFile fs m := by
  refine ⟨writeFile fs (fname ++ ".sha256sum")
      (FData.text (hex b ++ " " ++ basename fname ++ "\n")), ?_, ?_, ?_, ?_⟩
  · unfold create_hash
    rw [h]
  · exact lookupFile_writeFile_self ..
  · rw [lookupFile_writeFile_of_ne _ _ _ _ (string_ne_append_sha256sum fname)]
    exact h
  · exact fun m hm => lookupFile_writeFile_of_ne _ _ _ _ hm

/-- C5 witness: the amended layout at a concrete archive. -/
theorem C5_sidecar_single_space_layout_witness :
    ∃ fs2, create_hash (fun _ => "aa") [("d/a.tar", FData.bytes [1])] "d/a.tar"
        = some fs2
    ∧ lookupFile fs2 ("d/a.tar" ++ ".sha256sum")
        = some (FData.text ((fun _ : Bytes => "aa") [1] ++ " "
            ++ basename "d/a.tar" ++ "\n"))
    ∧ lookupFile fs2 "d/a.tar" = some (FData.bytes [1])
    ∧ ∀ m, m ≠ "d/a.tar" ++ ".sha256sum"
        → lookupFile fs2 m = lookupFile [("d/a.tar", FData.bytes [1])] m :=
  C5_sidecar_single_space_layout (fun _ => "aa") [("d/a.tar", FData.bytes [1])]
    "d/a.tar" [1] rfl

/-- C9: the git dirty-index check reports a dirty tree, and
`create_dist_git` prints the uncommitted-changes warning, exactly when
`git diff-index --quiet HEAD` exits with status 1; every other exit
status — 0, or error statuses like 128 — counts as clean and prints no
warning. -/
theorem C9_dirty_exactly_on_diff_exit_one (diffExit : Int) (cloned : FTree)
    (outcome : HookSpec → HookOutcome) (environ : Env)
    (dist_name dist_sub : String) (archives : List String)
    (dist_scripts : List HookSpec) :
    (git_have_dirty_index diffExit = true ↔ diffExit = 1)
    ∧ (dirtyWarning ∈ (create_dist_git diffExit cloned outcome environ dist_name
        dist_sub archives dist_scripts).warnings ↔ diffExit = 1) := by
  have hw : (create_dist_git diffExit cloned outcome environ dist_name dist_sub
      archives dist_scripts).warnings
      = if git_have_dirty_index diffExit then [dirtyWarning] else [] := by
    unfold create_dist_git
    dsimp only
    repeat' split
    all_goals rfl
  constructor
  · simp [git_have_dirty_index]
  · rw [hw]
    by_cases h1 : diffExit = 1
    · simp [git_have_dirty_index, h1]
    · simp [git_have_dirty_index, h1]

theorem create_dist_hg_output_names (summaryOut dist_name dist_sub : String)
    (archives : List String) (dist_scripts : List HookSpec) :
    (create_dist_hg summaryOut dist_name dist_sub archives dist_scripts).output_names
      = (["xztar", "gztar", "zip"].filter (fun a => archives.contains a)).map
          (fun a => dist_sub ++ "/" ++ dist_name ++ (archive_extension a).getD "") := by
  have e1 : ".tar" ++ ".xz" = ".tar.xz" := rfl
  have e2 : ".tar" ++ ".gz" = ".tar.gz" := rfl
  unfold create_dist_hg
  dsimp only
  by_cases hxz : "xztar" ∈ archives <;>
  by_cases hgz : "gztar" ∈ archives <;>
  by_cases hzip : "zip" ∈ archives <;>
    simp [hxz, hgz, hzip, archive_extension, String.append_assoc, e1, e2]

theorem create_dist_git_output_cases (diffExit : Int) (cloned : FTree)
    (outcome : HookSpec → HookOutcome) (environ : Env)
    (dist_name dist_sub : String) (archives : List String)
    (dist_scripts : List HookSpec) :
    (create_dist_git diffExit cloned outcome environ dist_name dist_sub archives
        dist_scripts).aborted = true
    ∨ (create_dist_git diffExit cloned outcome environ dist_name dist_sub archives
        dist_scripts).output_names
      = archives.map
          (fun a => dist_sub ++ "/" ++ dist_name ++ (archive_extension a).getD "") := by
  unfold create_dist_git
  dsimp only
  repeat' split
  all_goals first | exact Or.inl rfl | exact Or.inr rfl

/-- C10: the mercurial strategy emits its produced-archive list in the
fixed order xztar, gztar, zip restricted to the requested formats —
independent of the requested order — so the representative archive a
mercurial project passes to verification is fixed by that ordering,
while the git strategy emits one archive per requested format in
request order. -/
theorem C10_hg_fixed_order_git_request_order (summaryOut : String)
    (diffExit : Int) (cloned : FTree) (outcome : HookSpec → HookOutcome)
    (environ : Env) (dist_name dist_sub : String) (archives : List String)
    (dist_scripts : List HookSpec)
    (hgit : (create_dist_git diffExit cloned outcome environ dist_name dist_sub
        archives dist_scripts).aborted = false) :
    (create_dist_hg summaryOut dist_name dist_sub archives dist_scripts).output_names
      = (["xztar", "gztar", "zip"].filter (fun a => archives.contains a)).map
          (fun a => dist_sub ++ "/" ++ dist_name ++ (archive_extension a).getD "")
    ∧ (create_dist_git diffExit cloned outcome environ dist_name dist_sub archives
        dist_scripts).output_names
      = archives.map
          (fun a => dist_sub ++ "/" ++ dist_name ++ (archive_extension a).getD "") := by
  refine ⟨create_dist_hg_output_names .., ?_⟩
  rcases create_dist_git_output_cases diffExit cloned outcome environ dist_name
      dist_sub archives dist_scripts with hab | hout
  · rw [hgit] at hab
    exact Bool.noConfusion hab
  · exact hout

/-- C10 witness: requesting zip before xztar still yields the xz archive
first for mercurial, and request order for git. -/
theorem C10_hg_fixed_order_git_request_order_witness :
    (create_dist_hg "commit: (clean)" "p-1.0" "/bld/meson-dist" ["zip", "xztar"]
        []).output_names
      = ["/bld/meson-dist/p-1.0.tar.xz", "/bld/meson-dist/p-1.0.zip"]
    ∧ (create_dist_git 0 (FTree.dir []) (fun _ => HookOutcome.exited 0) []
        "p-1.0" "/bld/meson-dist" ["zip", "xztar"] []).output_names
      = ["/bld/meson-dist/p-1.0.zip", "/bld/meson-dist/p-1.0.tar.xz"] := by
  have h := C10_hg_fixed_order_git_request_order "commit: (clean)" 0
    (FTree.dir []) (fun _ => HookOutcome.exited 0) [] "p-1.0" "/bld/meson-dist"
    ["zip", "xztar"] [] rfl
  exact ⟨h.1.trans rfl, h.2.trans rfl⟩

theorem hooksLoop_all_ok (outcome : HookSpec → HookOutcome)
    (scripts : List HookSpec)
    (h : ∀ s ∈ scripts, outcome s = HookOutcome.exited 0) :
    hooksLoop outcome scripts = (scripts, none) := by
  induction scripts with
  | nil => rfl
  | cons s rest ih =>
      have hs := h s (by simp)
      have ihr := ih (fun x hx => h x (by simp [hx]))
      simp [hooksLoop, hs, ihr]

theorem hooksLoop_none_iff (outcome : HookSpec → HookOutcome)
    (scripts : List HookSpec) :
    (hooksLoop outcome scripts).2 = none
      ↔ ∀ s ∈ scripts, outcome s = HookOutcome.exited 0 := by
  induction scripts with
  | nil => simp [hooksLoop]
  | cons s rest ih =>
      rcases ho : outcome s with _ | rc
      · simp [hooksLoop, ho]
      · by_cases hrc : rc = 0
        · subst hrc
          simp [hooksLoop, ho, ih]
        · simp [hooksLoop, ho, hrc]

theorem hooksLoop_ran_initial (outcome : HookSpec → HookOutcome)
    (scripts : List HookSpec) :
    ∃ t, scripts = (hooksLoop outcome scripts).1 ++ t := by
  induction scripts with
  | nil => exact ⟨[], rfl⟩
  | cons s rest ih =>
      rcases ho : outcome s with _ | rc
      · exact ⟨rest, by simp [hooksLoop, ho]⟩
      · by_cases hrc : rc = 0
        · subst hrc
          obtain ⟨t, ht⟩ := ih
          refine ⟨t, ?_⟩
          simpa [hooksLoop, ho] using ht
        · exact ⟨rest, by simp [hooksLoop, ho, hrc]⟩

theorem hooksLoop_stops_at_first_failure (outcome : HookSpec → HookOutcome)
    (pre : List HookSpec) (s : HookSpec) (post : List HookSpec)
    (hpre : ∀ x ∈ pre, outcome x = HookOutcome.exited 0)
    (hs : outcome s ≠ HookOutcome.exited 0) :
    (hooksLoop outcome (pre ++ s :: post)).1 = pre ++ [s]
    ∧ (hooksLoop outcome (pre ++ s :: post)).2
        = some (if outcome s = HookOutcome.oserror then HookFailure.launchFailed
            else HookFailure.errored) := by
  induction pre with
  | nil =>
      rcases ho : outcome s with _ | rc
      · simp [hooksLoop, ho]
      · have hrc : ¬ rc = 0 := by
          rintro rfl
          exact hs ho
        simp [hooksLoop, ho, hrc]
  | cons p rest ih =>
      have hp := hpre p (by simp)
      have ihr := ih (fun x hx => hpre x (by simp [hx]))
      simp [hooksLoop, hp, ihr.1, ihr.2]

theorem envSet_fresh (e : Env) (k v : String) (h : ∀ p ∈ e, p.1 ≠ k) :
    envSet e k v = e ++ [(k, v)] := by
  unfold envSet
  have hc : e.any (fun p => p.1 = k) = false := by
    simp only [List.any_eq_false, decide_eq_true_eq]
    exact h
  rw [hc]
  simp

/-- C7: the hook runner launches the dist scripts strictly in the order
supplied, each with the current environment plus exactly one added
variable MESON_DIST_ROOT holding the absolute snapshot root; the
launched scripts always form a prefix of the supplied list, the run is
failure-free exactly when every script exits 0, and at the first script
that cannot be launched (fatal, exit 1) or exits non-zero (fatal exit)
the runner stops — the failing script is the last one launched and no
later script runs. -/
theorem C7_hooks_env_order_and_first_failure (outcome : HookSpec → HookOutcome)
    (environ : Env) (root : String) (scripts pre post : List HookSpec)
    (s : HookSpec) (habs : isabs root = true)
    (hfresh : ∀ p ∈ environ, p.1 ≠ "MESON_DIST_ROOT") :
    ∃ hr, run_dist_scripts outcome environ root scripts = some hr
    ∧ hr.envUsed = environ ++ [("MESON_DIST_ROOT", root)]
    ∧ (∃ t, scripts = hr.ran ++ t)
    ∧ (hr.failure = none ↔ ∀ x ∈ scripts, outcome x = HookOutcome.exited 0)
    ∧ ((∀ x ∈ scripts, outcome x = HookOutcome.exited 0) → hr.ran = scripts)
    ∧ (scripts = pre ++ s :: post
        → (∀ x ∈ pre, outcome x = HookOutcome.exited 0)
        → outcome s ≠ HookOutcome.exited 0
        → hr.ran = pre ++ [s]
          ∧ hr.failure = some (if outcome s = HookOutcome.oserror
              then HookFailure.launchFailed else HookFailure.errored)) := by
  refine ⟨⟨envSet environ "MESON_DIST_ROOT" root, (hooksLoop outcome scripts).1,
      (hooksLoop outcome scripts).2⟩, ?_, ?_, ?_, ?_, ?_, ?_⟩
  · simp [run_dist_scripts, habs]
  · exact envSet_fresh environ "MESON_DIST_ROOT" root hfresh
  · exact hooksLoop_ran_initial outcome scripts
  · exact hooksLoop_none_iff outcome scripts
  · intro hall
    rw [hooksLoop_all_ok outcome scripts hall]
  · intro hsplit hpre hfail
    subst hsplit
    exact hooksLoop_stops_at_first_failure outcome pre s post hpre hfail

/-- C7 witness: three concrete scripts where the second one exits 2. -/
theorem C7_hooks_env_order_and_first_failure_witness :
    ∃ hr, run_dist_scripts c7Outcome c7Environ "/tmp/snap"
        [c7Good, c7Bad, c7After] = some hr
    ∧ hr.envUsed = c7Environ ++ [("MESON_DIST_ROOT", "/tmp/snap")]
    ∧ (∃ t, [c7Good, c7Bad, c7After] = hr.ran ++ t)
    ∧ (hr.failure = none
        ↔ ∀ x ∈ [c7Good, c7Bad, c7After], c7Outcome x = HookOutcome.exited 0)
    ∧ ((∀ x ∈ [c7Good, c7Bad, c7After], c7Outcome x = HookOutcome.exited 0)
        → hr.ran = [c7Good, c7Bad, c7After])
    ∧ ([c7Good, c7Bad, c7After] = [c7Good] ++ c7Bad :: [c7After]
        → (∀ x ∈ [c7Good], c7Outcome x = HookOutcome.exited 0)
        → c7Outcome c7Bad ≠ HookOutcome.exited 0
        → hr.ran = [c7Good] ++ [c7Bad]
          ∧ hr.failure = some (if c7Outcome c7Bad = HookOutcome.oserror
              then HookFailure.launchFailed else HookFailure.errored)) :=
  C7_hooks_env_order_and_first_failure c7Outcome c7Environ "/tmp/snap"
    [c7Good, c7Bad, c7After] [c7Good] [c7After] c7Bad (by decide) (by decide)

/-- C8: a mercurial tree with dist scripts configured skips them — no
script is launched, the not-supported warning is printed — and archive
production still completes with the full requested set; the git strategy
runs every configured script against the snapshot (all of them when all
succeed) and proceeds to archiving. -/
theorem C8_hg_skips_hooks_git_runs_them (summaryOut dist_name dist_sub : String)
    (archives : List String) (dist_scripts : List HookSpec)
    (hscripts : dist_scripts ≠ []) (diffExit : Int) (cloned : FTree)
    (outcome : HookSpec → HookOutcome) (environ : Env) (t1 : FTree)
    (hsub : process_submodules cloned = some t1)
    (habs : isabs (dist_sub ++ "/" ++ dist_name) = true)
    (hok : ∀ x ∈ dist_scripts, outcome x = HookOutcome.exited 0) :
    hgScriptsWarning ∈ (create_dist_hg summaryOut dist_name dist_sub archives
        dist_scripts).warnings
    ∧ (create_dist_hg summaryOut dist_name dist_sub archives
        dist_scripts).hookRan = []
    ∧ (create_dist_hg summaryOut dist_name dist_sub archives
        dist_scripts).output_names
      = (["xztar", "gztar", "zip"].filter (fun a => archives.contains a)).map
          (fun a => dist_sub ++ "/" ++ dist_name ++ (archive_extension a).getD "")
    ∧ (create_dist_git diffExit cloned outcome environ dist_name dist_sub
        archives dist_scripts).hookRan = dist_scripts
    ∧ (create_dist_git diffExit cloned outcome environ dist_name dist_sub
        archives dist_scripts).aborted = false := by
  refine ⟨?_, rfl, create_dist_hg_output_names .., ?_, ?_⟩
  · unfold create_dist_hg
    dsimp only
    simp [hscripts]
  · simp [create_dist_git, hsub, run_dist_scripts, habs,
      hooksLoop_all_ok outcome dist_scripts hok]
  · simp [create_dist_git, hsub, run_dist_scripts, habs,
      hooksLoop_all_ok outcome dist_scripts hok]

/-- C8 witness: a mercurial project and a git project, each with one
configured dist script. -/
theorem C8_hg_skips_hooks_git_runs_them_witness :
    hgScriptsWarning ∈ (create_dist_hg "commit: (clean)" "p-1.0" "/bld/meson-dist"
        ["xztar"] [c7Good]).warnings
    ∧ (create_dist_hg "commit: (clean)" "p-1.0" "/bld/meson-dist" ["xztar"]
        [c7Good]).hookRan = []
    ∧ (create_dist_hg "commit: (clean)" "p-1.0" "/bld/meson-dist" ["xztar"]
        [c7Good]).output_names
      = (["xztar", "gztar", "zip"].filter
          (fun a => (["xztar"] : List String).contains a)).map
          (fun a => "/bld/meson-dist" ++ "/" ++ "p-1.0"
            ++ (archive_extension a).getD "")
    ∧ (create_dist_git 0 (FTree.dir []) c7Outcome c7Environ "p-1.0"
        "/bld/meson-dist" ["xztar"] [c7Good]).hookRan = [c7Good]
    ∧ (create_dist_git 0 (FTree.dir []) c7Outcome c7Environ "p-1.0"
        "/bld/meson-dist" ["xztar"] [c7Good]).aborted = false :=
  C8_hg_skips_hooks_git_runs_them "commit: (clean)" "p-1.0" "/bld/meson-dist"
    ["xztar"] [c7Good] (by decide) 0 (FTree.dir []) c7Outcome c7Environ
    (FTree.dir []) rfl (by decide) (by decide)

theorem string_append_right_cancel (a b c : String) (h : a ++ c = b ++ c) :
    a = b := by
  cases a with | mk d1 =>
  cases b with | mk d2 =>
  cases c with | mk d3 =>
  have hd : d1 ++ d3 = d2 ++ d3 := congrArg String.data h
  exact congrArg String.mk (List.append_cancel_right hd)

theorem stamp_all_ok (hex : Bytes → String) (names : List String) :
    ∀ fs : FileSys,
    (∀ n ∈ names, ∃ b, lookupFile fs n = some (FData.bytes b)) →
    (∀ n ∈ names, ∀ m ∈ names, m ≠ n ++ ".sha256sum") →
    ∃ fs2, stamp_all hex fs names = some fs2
    ∧ (∀ n b, n ∈ names → lookupFile fs n = some (FData.bytes b) →
        lookupFile fs2 (n ++ ".sha256sum")
          = some (FData.text (hex b ++ " " ++ basename n ++ "\n")))
    ∧ (∀ m : String, (∀ n ∈ names, m ≠ n ++ ".sha256sum") →
        lookupFile fs2 m = lookupFile fs m) := by
  induction names with
  | nil =>
      intro fs _ _
      exact ⟨fs, rfl, by simp, fun m _ => rfl⟩
  | cons n0 rest ih =>
      intro fs harch hnc
      obtain ⟨b0, hb0⟩ := harch n0 (by simp)
      have hch : create_hash hex fs n0 = some (writeFile fs (n0 ++ ".sha256sum")
          (FData.text (hex b0 ++ " " ++ basename n0 ++ "\n"))) := by
        unfold create_hash
        rw [hb0]
      set fs1 := writeFile fs (n0 ++ ".sha256sum")
          (FData.text (hex b0 ++ " " ++ basename n0 ++ "\n")) with hfs1
      have hframe1 : ∀ x ∈ n0 :: rest, lookupFile fs1 x = lookupFile fs x := by
        intro x hx
        exact lookupFile_writeFile_of_ne _ _ _ _ (hnc n0 (by simp) x hx)
      have harch1 : ∀ x ∈ rest, ∃ b, lookupFile fs1 x = some (FData.bytes b) := by
        intro x hx
        obtain ⟨b, hb⟩ := harch x (by simp [hx])
        exact ⟨b, (hframe1 x (by simp [hx])).trans hb⟩
      have hnc1 : ∀ x ∈ rest, ∀ m ∈ rest, m ≠ x ++ ".sha256sum" :=
        fun x hx m hm => hnc x (by simp [hx]) m (by simp [hm])
      obtain ⟨fs2, hstamp, hside, hfr⟩ := ih fs1 harch1 hnc1
      refine ⟨fs2, ?_, ?_, ?_⟩
      · simp [stamp_all, hch, hstamp]
      · intro n b hn hb
        rcases List.mem_cons.mp hn with rfl | hmem
        · have hbb : b = b0 := by
            rw [hb0] at hb
            exact (FData.bytes.inj (Option.some.inj hb)).symm
          subst hbb
          by_cases hr : n ∈ rest
          · exact hside n b hr ((hframe1 n (by simp)).trans hb0)
          · have hk : ∀ x ∈ rest, (n ++ ".sha256sum") ≠ x ++ ".sha256sum" := by
              intro x hx heq
              have hxn : n = x := string_append_right_cancel n x ".sha256sum" heq
              exact hr (hxn ▸ hx)
            rw [hfr (n ++ ".sha256sum") hk]
            exact lookupFile_writeFile_self ..
        · refine hside n b hmem ?_
          rw [hframe1 n (by simp [hmem])]
          exact hb
      · intro m hm
        rw [hfr m (fun x hx => hm x (by simp [hx])),
          lookupFile_writeFile_of_ne _ _ _ _ (hm n0 (by simp))]

/-- C2: integrity stamping happens for all produced archives if and only
if verification of the FIRST archive returns exit code 0; on a non-zero
verifier result nothing is written at all — no sidecar exists and the
archives remain untouched on disk — and the verifier result is returned
as the overall pipeline result in both cases. -/
theorem C2_stamp_all_iff_first_verifies (hex : Bytes → String)
    (checkRes : String → CheckResult) (fs : FileSys) (names : List String)
    (n0 : String) (rest : List String) (rc : Int)
    (hnames : names = n0 :: rest)
    (hout : (checkRes n0).outcome = CheckOutcome.returned rc)
    (harch : ∀ n ∈ names, ∃ b, lookupFile fs n = some (FData.bytes b))
    (hnc : ∀ n ∈ names, ∀ m ∈ names, m ≠ n ++ ".sha256sum") :
    (rc ≠ 0 → run_verify_and_stamp hex checkRes fs names = some (fs, rc))
    ∧ (rc = 0 → ∃ fs2,
        run_verify_and_stamp hex checkRes fs names = some (fs2, rc)
        ∧ (∀ n b, n ∈ names → lookupFile fs n = some (FData.bytes b) →
            lookupFile fs2 (n ++ ".sha256sum")
              = some (FData.text (hex b ++ " " ++ basename n ++ "\n")))
        ∧ (∀ m : String, (∀ n ∈ names, m ≠ n ++ ".sha256sum") →
            lookupFile fs2 m = lookupFile fs m)) := by
  subst hnames
  constructor
  · intro hrc
    simp [run_verify_and_stamp, hout, hrc]
  · intro hrc
    subst hrc
    obtain ⟨fs2, hst, hside, hfr⟩ := stamp_all_ok hex (n0 :: rest) fs harch hnc
    refine ⟨fs2, ?_, hside, hfr⟩
    simp [run_verify_and_stamp, hout, hst]

/-- C2 witness: one archive, a fully succeeding verification, and the
sidecar the stamping loop must then produce. -/
theorem C2_stamp_all_iff_first_verifies_witness :
    ((0 : Int) ≠ 0 → run_verify_and_stamp (fun _ => "aa") c2Check c2Fs
        [c2ArchiveName] = some (c2Fs, 0))
    ∧ ((0 : Int) = 0 → ∃ fs2,
        run_verify_and_stamp (fun _ => "aa") c2Check c2Fs [c2ArchiveName]
          = some (fs2, 0)
        ∧ (∀ n b, n ∈ [c2ArchiveName]
            → lookupFile c2Fs n = some (FData.bytes b)
            → lookupFile fs2 (n ++ ".sha256sum")
              = some (FData.text ((fun _ : Bytes => "aa") b ++ " "
                  ++ basename n ++ "\n")))
        ∧ (∀ m : String, (∀ n ∈ [c2ArchiveName], m ≠ n ++ ".sha256sum")
            → lookupFile fs2 m = lookupFile c2Fs m)) :=
  C2_stamp_all_iff_first_verifies (fun _ => "aa") c2Check c2Fs [c2ArchiveName]
    c2ArchiveName [] 0 rfl rfl
    (by
      intro n hn
      rw [List.mem_singleton] at hn
      subst hn
      exact ⟨[253, 55], rfl⟩)
    (by decide)

theorem lookupEntries_filter_git (es : List (String × FTree)) (c : String) :
    lookupEntries (es.filter (fun e => !isGitName e.1)) c
      = if isGitName c then none else lookupEntries es c := by
  induction es with
  | nil => by_cases h : isGitName c <;> simp [lookupEntries, h]
  | cons e rest ih =>
      obtain ⟨n, s⟩ := e
      by_cases hg : isGitName n
      · by_cases hnc : n = c
        · subst hnc
          simp [lookupEntries, hg, ih]
        · simp [lookupEntries, hg, hnc, ih]
      · by_cases hnc : n = c
        · subst hnc
          simp [lookupEntries, hg]
        · simp [lookupEntries, hg, hnc, ih]

theorem lookupEntries_map_modify (q : List String) (f : FTree → FTree)
    (es : List (String × FTree)) (d c : String) :
    lookupEntries
        (es.map (fun e => if e.1 = d then (e.1, modifyAt e.2 q f) else e)) c
      = if c = d then (lookupEntries es c).map (fun s => modifyAt s q f)
        else lookupEntries es c := by
  induction es with
  | nil => by_cases h : c = d <;> simp [lookupEntries, h]
  | cons e rest ih =>
      obtain ⟨n, s⟩ := e
      rw [List.map_cons]
      show lookupEntries ((if n = d then (n, modifyAt s q f) else (n, s))
          :: rest.map (fun e => if e.1 = d then (e.1, modifyAt e.2 q f) else e)) c
        = _
      by_cases hnd : n = d
      · subst hnd
        rw [if_pos rfl]
        by_cases hnc : n = c
        · subst hnc
          simp [lookupEntries]
        · simp [lookupEntries, hnc, Ne.symm hnc, ih]
      · rw [if_neg hnd]
        by_cases hnc : n = c
        · subst hnc
          simp [lookupEntries, hnd]
        · simp [lookupEntries, hnc, ih]

theorem lookupPath_modifyAt_self (f : FTree → FTree) :
    ∀ (p : List String) (t : FTree),
    lookupPath (modifyAt t p f) p = (lookupPath t p).map f := by
  intro p
  induction p with
  | nil => intro t; rfl
  | cons c rest ih =>
      intro t
      cases t with
      | file s => simp [modifyAt, lookupPath, lookupChild]
      | link => simp [modifyAt, lookupPath, lookupChild]
      | dir es =>
          simp only [modifyAt, lookupPath, lookupChild]
          rw [lookupEntries_map_modify rest f es c c]
          rw [if_pos rfl]
          cases h : lookupEntries es c with
          | none => simp
          | some sub => simp [ih sub]

theorem childNames_delgit_subset (t : FTree) :
    ∀ n ∈ childNames (del_gitfiles t), n ∈ childNames t := by
  cases t with
  | file s => simp [del_gitfiles]
  | link => simp [del_gitfiles]
  | dir es =>
      intro n hn
      simp only [del_gitfiles, childNames, List.mem_map] at hn ⊢
      obtain ⟨e, he, hne⟩ := hn
      exact ⟨e, (List.mem_filter.mp he).1, hne⟩

theorem noGitChildren_delgit (t : FTree) :
    noGitChildren (del_gitfiles t) = true := by
  cases t with
  | file s => rfl
  | link => rfl
  | dir es =>
      simp only [del_gitfiles, noGitChildren, childNames, List.all_eq_true,
        List.mem_map]
      rintro x ⟨e, he, rfl⟩
      exact (List.mem_filter.mp he).2

theorem lookupPath_modifyAt_delgit_names (q : List String) :
    ∀ (t : FTree) (p : List String) (sub : FTree),
    lookupPath (modifyAt t q del_gitfiles) p = some sub →
    ∃ sub0, lookupPath t p = some sub0
      ∧ ∀ n ∈ childNames sub, n ∈ childNames sub0 := by
  induction q with
  | nil =>
      intro t p sub h
      cases p with
      | nil =>
          refine ⟨t, rfl, ?_⟩
          have hsub : sub = del_gitfiles t := (Option.some.inj h).symm
          subst hsub
          exact childNames_delgit_subset t
      | cons c rest =>
          cases t with
          | file s => exact ⟨sub, h, fun n hn => hn⟩
          | link => exact ⟨sub, h, fun n hn => hn⟩
          | dir es =>
              simp only [modifyAt, del_gitfiles, lookupPath, lookupChild] at h
              rw [lookupEntries_filter_git es c] at h
              by_cases hg : isGitName c
              · rw [if_pos hg] at h
                exact Option.noConfusion h
              · rw [if_neg hg] at h
                refine ⟨sub, ?_, fun n hn => hn⟩
                simpa [lookupPath, lookupChild] using h
  | cons d qrest ih =>
      intro t p sub h
      cases t with
      | file s => exact ⟨sub, h, fun n hn => hn⟩
      | link => exact ⟨sub, h, fun n hn => hn⟩
      | dir es =>
          cases p with
          | nil =>
              refine ⟨FTree.dir es, rfl, ?_⟩
              have hsub : sub = FTree.dir (es.map (fun e =>
                  if e.1 = d then (e.1, modifyAt e.2 qrest del_gitfiles) else e)) :=
                (Option.some.inj h).symm
              subst hsub
              intro n hn
              simp only [childNames, List.mem_map] at hn ⊢
              obtain ⟨e, he, hne⟩ := hn
              obtain ⟨e0, he0, heq⟩ := he
              refine ⟨e0, he0, ?_⟩
              rw [← hne, ← heq]
              by_cases hd : e0.1 = d <;> simp [hd]
          | cons c rest =>
              simp only [modifyAt, lookupPath, lookupChild] at h
              rw [lookupEntries_map_modify qrest del_gitfiles es d c] at h
              by_cases hcd : c = d
              · rw [if_pos hcd] at h
                cases hle : lookupEntries es c with
                | none => rw [hle] at h; exact Option.noConfusion h
                | some s0 =>
                    rw [hle] at h
                    simp only [Option.map_some'] at h
                    obtain ⟨sub0, h0, hnames⟩ := ih s0 rest sub h
                    refine ⟨sub0, ?_, hnames⟩
                    simp [lookupPath, lookupChild, hle, h0]
              · rw [if_neg hcd] at h
                refine ⟨sub, ?_, fun n hn => hn⟩
                simpa [lookupPath, lookupChild] using h

theorem strippedAt_modifyAt_self (t : FTree) (p : List String) :
    strippedAt (modifyAt t p del_gitfiles) p = true := by
  unfold strippedAt
  rw [lookupPath_modifyAt_self del_gitfiles p t]
  cases lookupPath t p with
  | none => rfl
  | some s => simpa using noGitChildren_delgit s

theorem strippedAt_modifyAt_preserved (t : FTree) (p q : List String)
    (h : strippedAt t p = true) :
    strippedAt (modifyAt t q del_gitfiles) p = true := by
  unfold strippedAt at h ⊢
  cases hl : lookupPath (modifyAt t q del_gitfiles) p with
  | none => rfl
  | some sub =>
      obtain ⟨sub0, h0, hsubset⟩ := lookupPath_modifyAt_delgit_names q t p sub hl
      rw [h0] at h
      unfold noGitChildren at h ⊢
      simp only [List.all_eq_true] at h ⊢
      exact fun n hn => h n (hsubset n hn)

theorem strippedAt_foldl_preserved (paths : List String) :
    ∀ (t : FTree) (p : List String), strippedAt t p = true →
    strippedAt (paths.foldl
        (fun acc w => modifyAt acc (splitPath w) del_gitfiles) t) p = true := by
  induction paths with
  | nil => exact fun t p h => h
  | cons w rest ih =>
      intro t p h
      exact ih _ p (strippedAt_modifyAt_preserved t p (splitPath w) h)

theorem strippedAt_foldl_mem (paths : List String) :
    ∀ (t : FTree) (v : String), v ∈ paths →
    strippedAt (paths.foldl
        (fun acc w => modifyAt acc (splitPath w) del_gitfiles) t)
      (splitPath v) = true := by
  induction paths with
  | nil =>
      intro t v hv
      exact absurd hv (List.not_mem_nil v)
  | cons w rest ih =>
      intro t v hv
      rcases List.mem_cons.mp hv with rfl | hv2
      · exact strippedAt_foldl_preserved rest _ _
          (strippedAt_modifyAt_self t (splitPath v))
      · exact ih _ v hv2

/-- C1 counterexample: stripping a cloned tree whose submodule `sub` has
its own nested submodule at `sub/inner` leaves the nested gitlink
`sub/inner/.git` in the snapshot — the code never reads the nested
`.gitmodules`, so the produced snapshot is NOT free of git control files
at every depth. -/
theorem C1_nested_submodule_counterexample :
    (gitStripSnapshot c1Tree).map noGitDeep = some false
    ∧ (gitStripSnapshot c1Tree).map
        (fun r => (lookupPath r ["sub", "inner", ".git"]).isSome) = some true := by
  exact ⟨by decide, by decide⟩

/-- C1 amended: the stripping phase removes `.git*` entries from the top
level of every directory listed as a `path =` entry in the own
`.gitmodules` file of the snapshot root (nested `.gitmodules` files are
not read), and then from the top level of the snapshot root; deeper git
control files, including those of nested submodules, may remain. -/
theorem C1_amended_strip_top_level_only (t r : FTree)
    (h : gitStripSnapshot t = some r) :
    noGitChildren r = true
    ∧ ∀ v ∈ modulePaths t, strippedAt r (splitPath v) = true := by
  unfold gitStripSnapshot at h
  cases hps : process_submodules t with
  | none =>
      rw [hps] at h
      exact Option.noConfusion h
  | some t1 =>
      rw [hps] at h
      have hr : r = del_gitfiles t1 := (Option.some.inj h).symm
      subst hr
      refine ⟨noGitChildren_delgit t1, ?_⟩
      intro v hv
      unfold process_submodules at hps
      unfold modulePaths at hv
      cases hlc : lookupChild t ".gitmodules" with
      | none =>
          rw [hlc] at hv
          exact absurd hv (List.not_mem_nil v)
      | some g =>
          cases g with
          | file content =>
              rw [hlc] at hps hv
              have ht1 : t1 = (parseModulePaths content).foldl
                  (fun acc w => modifyAt acc (splitPath w) del_gitfiles) t :=
                (Option.some.inj hps).symm
              subst ht1
              exact strippedAt_modifyAt_preserved _ _ []
                (strippedAt_foldl_mem (parseModulePaths content) t v hv)
          | link =>
              rw [hlc] at hps
              exact Option.noConfusion hps
          | dir es =>
              rw [hlc] at hps
              exact Option.noConfusion hps

/-- C1 witness: the amended stripping guarantee at the concrete tree of
the counterexample. -/
theorem C1_amended_strip_top_level_only_witness :
    noGitChildren c1Result = true
    ∧ ∀ v ∈ modulePaths c1Tree, strippedAt c1Result (splitPath v) = true :=
  C1_amended_strip_top_level_only c1Tree c1Result rfl

end Mdist
